import Mathlib

/-!
# Verification of the vv-pgo-instrument Wasm rewriter

Shallow embedding of the profile resolver (`src/profilemap.rs`), the
call-site inventory and rewriters (`src/main.rs`), the stub generators
(`src/instrument.rs`, `src/main.rs`), the observation wiring
(`src/main.rs`) and the fastcall/slowcall fixed point (`src/fastcalls.rs`),
together with proofs of the specification claims about them.

Conventions: walrus identifiers (`FunctionId`, `TypeId`, `GlobalId`,
`LocalId`) are modelled as `Nat`; Wasm i32 values as `Int` (with explicit
wrap-around where the code performs arithmetic); Rust panics as `none` of
an `Option` result.
-/

/-! ## Profile resolver (`src/profilemap.rs`) -/

/-- `MapValue` from `src/profilemap.rs`: `f_id: Option<Vec<FunctionId>>`,
`f_bool: bool`.  `⟨some fs, false⟩` = direct call(s), `⟨none, false⟩` =
retain, `⟨none, true⟩` = unreachable. -/
structure MapValue where
  f_id : Option (List Nat)
  f_bool : Bool
deriving DecidableEq, Repr

/-- Rust `x as usize` on an `i32`/value read as `Int`: wrap into `[0, 2^64)`. -/
def usizeOf (v : Int) : Nat :=
  (v % (2 : Int) ^ 64).toNat

/-- An element segment of the main function table: its `kind` reduced to the
offset the code extracts, and its `members: Vec<Option<FunctionId>>`. -/
structure ElemSeg where
  activeI32Offset : Option Int
  members : List (Option Nat)

/-- Offset extraction in `process_map`: an `Active` kind whose initializer is
`InitExpr::Value(Value::I32(x))` yields `x as usize`, anything else yields 0. -/
def segOffset (seg : ElemSeg) : Nat :=
  match seg.activeI32Offset with
  | some x => usizeOf x
  | none => 0

/-- The slice of the module `process_map` looks at: `main_function_table()`
(`none` when the module has no function table) and its element segments. -/
structure PMModule where
  mainTable : Option (List ElemSeg)

/-- The `for id in calls { func_ids.push(e.members[(*id as usize) - offset].unwrap()) }`
loop: every lookup must be in range and `Some`, otherwise the process panics
(`none`). -/
def resolveCalls (off : Nat) (members : List (Option Nat)) : List Int → Option (List Nat)
  | [] => some []
  | v :: rest =>
    if off ≤ usizeOf v then
      match members[usizeOf v - off]? with
      | some (some fid) =>
        match resolveCalls off members rest with
        | some fids => some (fid :: fids)
        | none => none
      | _ => none
    else
      none

/-- One iteration of the `for (global_idx, indirect_idx)` loop of
`process_map`: classify one profile entry's observation list. -/
def processEntry (off : Nat) (members : List (Option Nat)) (obs : List Int) :
    Option MapValue :=
  let calls := obs.filter (fun v => v != -2 && v != -1)
  if calls.length > 0 then
    match resolveCalls off members calls with
    | some fids => some ⟨some fids, false⟩
    | none => none
  else if (obs.filter (fun v => v == -2)).length = obs.length then
    some ⟨none, false⟩
  else
    some ⟨none, true⟩

/-- The inner `for (global_idx, indirect_idx) in &original_map` loop of
`process_map`: each profile entry is classified and inserted (keys are
distinct `HashMap` keys, so the insertions are independent). -/
def pmEntries (off : Nat) (members : List (Option Nat)) :
    List (Nat × List Int) → Option (List (Nat × MapValue))
  | [] => some []
  | (k, obs) :: rest =>
    match processEntry off members obs with
    | some mv =>
      match pmEntries off members rest with
      | some res => some ((k, mv) :: res)
      | none => none
    | none => none

/-- `process_map` (src/profilemap.rs): `main_function_table().unwrap().unwrap()`
panics (`none`) when the module has no main function table; otherwise only the
first element segment is used (`break` at the end of the loop), and with no
segment at all the map is left empty. -/
def processMap (m : PMModule) (profile : List (Nat × List Int)) :
    Option (List (Nat × MapValue)) :=
  match m.mainTable with
  | none => none
  | some segs =>
    match segs with
    | [] => some []
    | seg :: _ => pmEntries (segOffset seg) seg.members profile

/-! ## Call-site rewriters (`src/main.rs`) -/

/-- The instructions the call-site rewriter of `src/main.rs` distinguishes
inside one instruction sequence. -/
inductive MInstr where
  | const (v : Int)
  | call (f : Nat)
  | callIndirectM (ty : Nat)
  | unreachableM
  | otherM
deriving DecidableEq, Repr

/-- `MapValue` as defined in `src/main.rs` (scalar `f_id: Option<FunctionId>`). -/
structure MainMapValue where
  f_id : Option Nat
  f_bool : Bool
deriving DecidableEq, Repr

/-- Optimize-mode rewrite of one recorded site (src/main.rs lines 370-402):
`Some` ⇒ insert a direct `call` at `point` and remove the stale
`call_indirect` now at `point + 1`; `(None, true)` ⇒ the same with
`unreachable`; `(None, false)` ⇒ no edit. -/
def optRewrite (seq : List MInstr) (point : Nat) (mv : MainMapValue) : List MInstr :=
  match mv.f_id, mv.f_bool with
  | some fid, _ => ((seq.insertIdx point (.call fid)).eraseIdx (point + 1))
  | none, true => ((seq.insertIdx point .unreachableM).eraseIdx (point + 1))
  | none, false => seq

/-- Instrument-mode rewrite of one recorded site (src/main.rs lines 345-361):
insert `call stub` at `point`, insert `i32.const global_index` at `point`
(ending up before the call), then remove the original `call_indirect` now at
`point + 2`. -/
def instRewrite (seq : List MInstr) (point : Nat) (stub : Nat) (gIdx : Int) :
    List MInstr :=
  (((seq.insertIdx point (.call stub)).insertIdx point (.const gIdx)).eraseIdx (point + 2))

/-! ## Per-site profiling globals and exports (`src/main.rs` lines 409-419, 473-476) -/

/-- A module global as `module.globals.add_local` receives it:
value type (i32 throughout), mutability, initial value. -/
structure GlobalDecl where
  isI32 : Bool
  mutable_ : Bool
  init : Int
deriving DecidableEq, Repr

/-- The globals added in instrument mode: one mutable i32 global initialized
to `-1` per recorded call site (`for idx in 0..global_index`). -/
def profilingGlobals (numSites : Nat) : List GlobalDecl :=
  (List.range numSites).map (fun _ => ⟨true, true, -1⟩)

/-- The exports added in instrument mode (src/main.rs lines 473-476): the
`idx`-th observation global is exported under `"profiling_global_" ++ idx`. -/
def profilingExports (numSites : Nat) : List (String × Nat) :=
  (List.range numSites).map (fun i => ("profiling_global_" ++ toString i, i))

/-! ## Indirect-site inventory traversal (`src/main.rs` lines 311-340) -/

mutual

/-- Instructions as the inventory worklist of `src/main.rs` distinguishes
them: `CallIndirect`, `Block`, `Loop`, and everything else. `if_else` arms are
kept in the syntax (walrus has them) so that the traversal's treatment of them
can be stated. -/
inductive TInstr where
  | callIndirectT (ty : Nat)
  | blockT (s : TSeq)
  | loopT (s : TSeq)
  | ifElseT (c : TSeq) (a : TSeq)
  | otherT

/-- An instruction sequence (a walrus `InstrSeq`, by value instead of id). -/
inductive TSeq where
  | nil
  | cons (i : TInstr) (rest : TSeq)

end

/-- The `for (instr, loc) in &bmut.instrs` body of the worklist loop: collect
`(count + offset, ty)` for each `CallIndirect` (incrementing `offset` when not
optimizing), and collect the sequences pushed onto `seqs_to_process` — `Block`
and `Loop` push their sequence, every other instruction (including `IfElse`)
falls into the `_ => {}` arm. -/
def seqScan (isOpt : Bool) : TSeq → Nat → Nat → List (Nat × Nat) × List TSeq
  | .nil, _, _ => ([], [])
  | .cons i rest, count, offset =>
    match i with
    | .callIndirectT ty =>
      let p := seqScan isOpt rest (count + 1) (if isOpt then offset else offset + 1)
      ((count + offset, ty) :: p.1, p.2)
    | .blockT s =>
      let p := seqScan isOpt rest (count + 1) offset
      (p.1, s :: p.2)
    | .loopT s =>
      let p := seqScan isOpt rest (count + 1) offset
      (p.1, s :: p.2)
    | .ifElseT _ _ => seqScan isOpt rest (count + 1) offset
    | .otherT => seqScan isOpt rest (count + 1) offset

/-- The `while seqs_to_process.len() > 0` worklist loop.  The list argument is
the stack with its top first (Rust pushes and pops at the `Vec`'s end, so the
sequences pushed while scanning are reversed onto the top).  `fuel` bounds the
number of pops; each pop consumes a sequence that occurs exactly once in the
function body, so any bound on the number of nested sequences is enough. -/
def wlScan (isOpt : Bool) : Nat → List TSeq → List (Nat × Nat)
  | 0, _ => []
  | _ + 1, [] => []
  | fuel + 1, s :: rest =>
    let p := seqScan isOpt s 0 0
    p.1 ++ wlScan isOpt fuel (p.2.reverse ++ rest)

mutual

/-- The number of instruction sequences nested inside an instruction. -/
def tInstrSeqs : TInstr → Nat
  | .callIndirectT _ => 0
  | .blockT s => 1 + tSeqSeqs s
  | .loopT s => 1 + tSeqSeqs s
  | .ifElseT c a => 2 + tSeqSeqs c + tSeqSeqs a
  | .otherT => 0

/-- The number of instruction sequences nested inside a sequence. -/
def tSeqSeqs : TSeq → Nat
  | .nil => 0
  | .cons i r => tInstrSeqs i + tSeqSeqs r

end

/-- The recorded `insertion_point` data (position, type) for one local
function, starting from its entry sequence.  Every sequence is popped at most
once, so `1 + tSeqSeqs entry` pops always drain the worklist. -/
def inventorySites (isOpt : Bool) (entry : TSeq) : List (Nat × Nat) :=
  wlScan isOpt (1 + tSeqSeqs entry) [entry]

mutual

/-- All `call_indirect` type ids in an instruction, nested sequences included —
this is what the `TypeScan` visitor of `src/main.rs` collects, because
`walrus::ir::dfs_pre_order_mut` descends into every nested sequence
(blocks, loops and both `if_else` arms). -/
def tInstrCIs : TInstr → List Nat
  | .callIndirectT ty => [ty]
  | .blockT s => tSeqCIs s
  | .loopT s => tSeqCIs s
  | .ifElseT c a => tSeqCIs c ++ tSeqCIs a
  | .otherT => []

/-- All `call_indirect` type ids in a sequence, nested sequences included. -/
def tSeqCIs : TSeq → List Nat
  | .nil => []
  | .cons i r => tInstrCIs i ++ tSeqCIs r

end

/-- A function body whose only instruction is an `if_else` with a
`call_indirect` in its consequent arm. -/
def ifArmBody : TSeq :=
  .cons (.ifElseT (.cons (.callIndirectT 7) .nil) .nil) .nil

example : tSeqCIs ifArmBody = [7] := by decide
example : inventorySites false ifArmBody = [] := by decide

/-! ## A small evaluator for the straight-line structured bodies the tool
builds (optimize-mode stubs, slowcall wrappers, observation wiring).  The
embedded code uses no `br`/`br_if`, so a `block` just runs its body, an
`if_else` runs one arm, and `return` ends the function. -/

/-- The binary operators used by the generated bodies. -/
inductive BOp where
  | add
  | eq
  | ne
deriving DecidableEq, Repr

/-- Signed 32-bit wrap-around, as Wasm `i32.add` performs it. -/
def wrap32 (x : Int) : Int :=
  (x + 2 ^ 31) % 2 ^ 32 - 2 ^ 31

/-- `i32.add` wraps; `i32.eq`/`i32.ne` push 1 or 0. -/
def BOp.apply : BOp → Int → Int → Int
  | .add, a, b => wrap32 (a + b)
  | .eq, a, b => if a = b then 1 else 0
  | .ne, a, b => if a = b then 0 else 1

mutual

/-- Instructions of the generated bodies (walrus `ir::Instr` restricted to
what the builders of this tool emit). -/
inductive SInstr where
  | i32Const (n : Int)
  | localGet (i : Nat)
  | globalGet (g : Nat)
  | globalSet (g : Nat)
  | binop (op : BOp)
  | call (f : Nat)
  | ret
  | unreach
  | blockI (body : SSeq)
  | loopI (body : SSeq)
  | ifElse (thn els : SSeq)
  | otherI

/-- An instruction sequence. -/
inductive SSeq where
  | nil
  | cons (i : SInstr) (rest : SSeq)

end

/-- Build an `SSeq` from a list. -/
def SSeq.ofList : List SInstr → SSeq
  | [] => .nil
  | i :: r => .cons i (SSeq.ofList r)

/-- Pointwise update of a global (or local) environment. -/
def gupd (g : Nat → Int) (i : Nat) (v : Int) : Nat → Int :=
  fun j => if j = i then v else g j

/-- Evaluation state: value stack (head = top), locals, globals, and the
trace of direct calls made (callee, argument values in parameter order). -/
structure EvalSt where
  stack : List Int
  locals : Nat → Int
  globals : Nat → Int
  events : List (Nat × List Int)

/-- Evaluation context: each function's parameter count and an oracle for
the values a called function returns. -/
structure Env where
  paramCount : Nat → Nat
  callRes : Nat → List Int → List Int

/-- Evaluation outcome: fell through normally, hit `return`, or trapped. -/
inductive Res where
  | ok (st : EvalSt)
  | returned (st : EvalSt)
  | trap (st : EvalSt)

/-- The state carried by an outcome. -/
def resSt : Res → EvalSt
  | .ok st => st
  | .returned st => st
  | .trap st => st

/-- Whether an outcome is a normal fall-through. -/
def resIsOk : Res → Bool
  | .ok _ => true
  | _ => false

/-- Whether an outcome is a `return`. -/
def resIsReturned : Res → Bool
  | .returned _ => true
  | _ => false

/-- Whether an outcome is a trap. -/
def resIsTrap : Res → Bool
  | .trap _ => true
  | _ => false

mutual

/-- One instruction.  Stack underflow traps (validated Wasm never underflows;
none of the proofs below reach those arms). -/
def evalInstr (env : Env) (i : SInstr) (st : EvalSt) : Res :=
  match i with
  | .i32Const n => .ok { st with stack := n :: st.stack }
  | .localGet l => .ok { st with stack := st.locals l :: st.stack }
  | .globalGet g => .ok { st with stack := st.globals g :: st.stack }
  | .globalSet g =>
    match st.stack with
    | v :: s => .ok { st with stack := s, globals := gupd st.globals g v }
    | [] => .trap st
  | .binop op =>
    match st.stack with
    | b :: a :: s => .ok { st with stack := op.apply a b :: s }
    | _ => .trap st
  | .call f =>
    let n := env.paramCount f
    if n ≤ st.stack.length then
      let args := (st.stack.take n).reverse
      .ok { st with
        stack := (env.callRes f args).reverse ++ st.stack.drop n,
        events := st.events ++ [(f, args)] }
    else
      .trap st
  | .ret => .returned st
  | .unreach => .trap st
  | .blockI b => evalSeq env b st
  | .loopI b => evalSeq env b st
  | .ifElse thn els =>
    match st.stack with
    | c :: s =>
      if c = 0 then evalSeq env els { st with stack := s }
      else evalSeq env thn { st with stack := s }
    | [] => .trap st
  | .otherI => .ok st

/-- A sequence: run instructions in order until one returns or traps. -/
def evalSeq (env : Env) (s : SSeq) (st : EvalSt) : Res :=
  match s with
  | .nil => .ok st
  | .cons i rest =>
    match evalInstr env i st with
    | .ok st' => evalSeq env rest st'
    | r => r

end

/-! ## Optimize-mode specialization stubs (`src/instrument.rs` lines 97-139) -/

/-- One comparison block of the optimize-mode stub: compare the raw profile
value `cmp` (`target[call_idx]`) against the trailing i32 parameter (local
`nOld`, where `nOld` is the number of original parameters), and if equal
forward locals `0..nOld` to `callee` (`id[call_idx]`) and return. -/
def guardBlock (cmp : Int) (callee : Nat) (nOld : Nat) : SInstr :=
  .blockI (SSeq.ofList [.i32Const cmp, .localGet nOld, .binop .eq,
    .ifElse
      (SSeq.ofList (((List.range nOld).map SInstr.localGet) ++ [.call callee, .ret]))
      (SSeq.ofList [])])

/-- The whole stub body: the `for call_idx in 0..id.len()` loop emits each
guard with `block_at(0, ..)`, so the guards end up in reverse emission order,
followed by the trailing `unreachable`.  The loop reads `target[call_idx]`
(the raw observation list) and `id[call_idx]` (the filtered callee list);
`zip` pairs them exactly as the loop's common index does (the callee list is
never longer than the observation list). -/
def optStubBody (targets : List Int) (ids : List Nat) (nOld : Nat) : SSeq :=
  SSeq.ofList ((((targets.zip ids).map (fun p => guardBlock p.1 p.2 nOld)).reverse) ++ [.unreach])

/-! ## Slowcall wrappers and call rewriting (`src/fastcalls.rs` lines 263-336) -/

/-- Body of `slowcall_stub_<k>` for a slowcall `f` (fastcalls.rs lines
309-321): increment the slowcall counter global, forward all parameters,
call `f`. -/
def slowcallStubBody (ctr : Nat) (nParams : Nat) (f : Nat) : SSeq :=
  SSeq.ofList ([.globalGet ctr, .i32Const 1, .binop .add, .globalSet ctr] ++
    ((List.range nParams).map SInstr.localGet) ++ [.call f])

mutual

/-- `CallScanner::visit_instr_mut` (fastcalls.rs lines 269-282) on one
instruction of the function `curr`: a `call g` with `g` keyed in the wrapper
map becomes a call of the wrapper, unless the wrapper is `curr` itself. -/
def rewriteInstr (mapping : Nat → Option Nat) (curr : Nat) : SInstr → SInstr
  | .call g =>
    match mapping g with
    | some w => if w ≠ curr then .call w else .call g
    | none => .call g
  | .blockI s => .blockI (rewriteSeq mapping curr s)
  | .loopI s => .loopI (rewriteSeq mapping curr s)
  | .ifElse thn els => .ifElse (rewriteSeq mapping curr thn) (rewriteSeq mapping curr els)
  | i => i

/-- `dfs_pre_order_mut` applies the visitor to every instruction of every
nested sequence. -/
def rewriteSeq (mapping : Nat → Option Nat) (curr : Nat) : SSeq → SSeq
  | .nil => .nil
  | .cons i r => .cons (rewriteInstr mapping curr i) (rewriteSeq mapping curr r)

end

/-! ## Observation wiring woven into the instrument stubs
(`src/main.rs` lines 422-471).

The stub's argument locals are `args = [extra, q0, …, q(n+1)]` while its type
has `n + 2` parameters, so parameter `j` is bound to `args[j]`: the local read
as `args[args.len() - 2]` holds the stub's *last* i32 parameter (the call-site
index pushed by the rewritten call site) and `args[args.len() - 3]` holds the
second-to-last (the original `call_indirect` target).  Below `siteL` and
`targetL` name those two locals. -/

/-- The block woven per call-site index (main.rs lines 427-468): if the
site parameter equals `siteConst`, then (1) if the observation global is `-1`
set it to the target, (2) if the target now differs from the global set the
global to `-2`. -/
def obsBlock (gIdx : Nat) (siteConst : Int) (siteL targetL : Nat) : SInstr :=
  .blockI (SSeq.ofList [.localGet siteL, .i32Const siteConst, .binop .eq,
    .ifElse
      (SSeq.ofList [
        .globalGet gIdx, .i32Const (-1), .binop .eq,
        .ifElse (SSeq.ofList [.localGet targetL, .globalSet gIdx]) (SSeq.ofList []),
        .localGet targetL, .globalGet gIdx, .binop .ne,
        .ifElse (SSeq.ofList [.i32Const (-2), .globalSet gIdx]) (SSeq.ofList [])])
      (SSeq.ofList [])])

/-- The entire woven prefix: one `obsBlock` per call site `0..n`, inserted
with `block_at(0, ..)` and therefore in reverse order.  The `idx`-th created
observation global is modelled as global `idx` (`global_map[idx]`). -/
def obsBlocks (n : Nat) (siteL targetL : Nat) : SSeq :=
  SSeq.ofList (((List.range n).map (fun i => obsBlock i (Int.ofNat i) siteL targetL)).reverse)

/-- The net effect of one matching `obsBlock` on its observation global
(proved below): `-1` becomes the target, a stored target is kept, anything
else becomes `-2`. -/
def obsUpdate (g t : Int) : Int :=
  if g = -1 then t else if t = g then g else -2

/-! ## Fastcall/slowcall classification (`src/fastcalls.rs` lines 108-261) -/

/-- The instructions `FastCallScan::visit_instr_mut` distinguishes. -/
inductive FCInstr where
  | callF (g : Nat)
  | callIndirectF (ty : Nat)
  | otherF
deriving DecidableEq, Repr

/-- The slice of the module `compute_slowcalls` reads: imported functions
with their import names, local functions with their bodies (flattened in
`dfs_pre_order` order — the scan only accumulates, so order is irrelevant),
the `_start` function id, and the members of the first element segment of the
main function table with a type lookup (walrus interns types, so type ids are
compared instead of structural types). -/
structure FCModule where
  imports : List (Nat × String)
  locals : List (Nat × List FCInstr)
  startId : Nat
  tableMembers : List Nat
  tyOf : Nat → Nat

/-- The import set used for poisoning (fastcalls.rs lines 112-121):
all imported functions except the whitelisted `proc_exit` and `fd_write`. -/
def importedFuncs (m : FCModule) : Finset Nat :=
  ((m.imports.filter (fun p => p.2 != "proc_exit" && p.2 != "fd_write")).map Prod.fst).toFinset

/-- The possible targets of a `call_indirect` of type `ty`: the element
members whose function type matches (fastcalls.rs lines 44-50). -/
def indirectTargets (m : FCModule) (ty : Nat) : Finset Nat :=
  (m.tableMembers.filter (fun h => m.tyOf h == ty)).toFinset

/-- One `visit_instr_mut` call of `FastCallScan` (fastcalls.rs lines 34-75),
acting on the pair (is_fastcall, deps). -/
def fcScanStep (m : FCModule) (fid : Nat) (acc : Bool × Finset Nat) (i : FCInstr) :
    Bool × Finset Nat :=
  if m.startId = fid then (false, acc.2)
  else
    match i with
    | .callIndirectF ty =>
      let all := indirectTargets m ty
      if fid ∈ all then (false, acc.2)
      else (acc.1, acc.2 ∪ all)
    | .callF g =>
      if fid = g then (false, acc.2)
      else if g ∈ importedFuncs m then (false, acc.2)
      else (acc.1, insert g acc.2)
    | .otherF => acc

/-- The whole scan of one local function: fold `visit_instr_mut` over the
body starting from `is_fastcall = true`, `deps = ∅`. -/
def fcScan (m : FCModule) (fid : Nat) (body : List FCInstr) : Bool × Finset Nat :=
  body.foldl (fcScanStep m fid) (true, ∅)

/-- `scan_results`: one scan per local function. -/
def fcScanResults (m : FCModule) : List (Nat × Bool × Finset Nat) :=
  m.locals.map (fun p => (p.1, fcScan m p.1 p.2))

/-- Look up a scan's `deps` by function id (function ids are unique, so this
matches the Rust `HashSet` of scans hashed by `func_id`). -/
def depsOf (rs : List (Nat × Bool × Finset Nat)) (i : Nat) : Finset Nat :=
  match rs.find? (fun r => r.1 == i) with
  | some r => r.2.2
  | none => ∅

/-- Look up a scan's `is_fastcall` flag by function id. -/
def isFastOf (rs : List (Nat × Bool × Finset Nat)) (i : Nat) : Bool :=
  match rs.find? (fun r => r.1 == i) with
  | some r => r.2.1
  | none => true

/-- The three growing/shrinking sets of the fixed-point loop, as sets of
function ids. -/
structure FCState where
  fast : Finset Nat
  slow : Finset Nat
  unknown : Finset Nat
deriving DecidableEq

/-- One pass of the `while unknown.len() != prev` loop body (fastcalls.rs
lines 214-242): move the unknowns depending on a slowcall into `slowcalls`,
move the unknowns whose deps all are fastcalls into `fastcalls` (both
filters read the sets as they were when the pass started, matching the Rust
borrow structure), then remove both groups from `unknown`. -/
def fcStep (deps : Nat → Finset Nat) (s : FCState) : FCState :=
  let slowAdd := s.unknown.filter (fun u => (deps u ∩ s.slow).Nonempty)
  let fastAdd := s.unknown.filter (fun u => deps u ⊆ s.fast)
  ⟨s.fast ∪ fastAdd, s.slow ∪ slowAdd, s.unknown \ (slowAdd ∪ fastAdd)⟩

/-- The loop itself: stop when `unknown.len() == prev` (with `prev`
initially 0), otherwise run a pass and remember the previous size.  A pass
that continues strictly shrinks `unknown`, so `card unknown + 1` rounds of
fuel always reach the fixed point. -/
def fcLoop (deps : Nat → Finset Nat) : Nat → Nat → FCState → FCState
  | 0, _, s => s
  | fuel + 1, prev, s =>
    if s.unknown.card = prev then s
    else fcLoop deps fuel s.unknown.card (fcStep deps s)

/-- The seeds (fastcalls.rs lines 198-211): `fastcalls` = scans with
`is_fastcall ∧ deps = ∅`, `slowcalls` = scans with `¬ is_fastcall`,
`unknown` = scans with `is_fastcall ∧ deps ≠ ∅`. -/
def fcInit (m : FCModule) : FCState :=
  let rs := fcScanResults m
  { fast := ((rs.filter (fun r => r.2.1 && r.2.2.card == 0)).map Prod.fst).toFinset
    slow := ((rs.filter (fun r => !r.2.1)).map Prod.fst).toFinset
    unknown := ((rs.filter (fun r => r.2.1 && r.2.2.card != 0)).map Prod.fst).toFinset }

/-- The state after the loop terminates. -/
def fcFinal (m : FCModule) : FCState :=
  fcLoop (depsOf (fcScanResults m)) ((fcInit m).unknown.card + 1) 0 (fcInit m)

/-- `compute_slowcalls`'s result: the slowcall set after the loop, plus every
function still unknown (fastcalls.rs lines 244-251). -/
def fcSlowSet (m : FCModule) : Finset Nat :=
  (fcFinal m).slow ∪ (fcFinal m).unknown

/-- The fastcall set after the loop. -/
def fcFastSet (m : FCModule) : Finset Nat :=
  (fcFinal m).fast

/-- Counterexample module for the whitelist claim: import 10 is named
`proc_exit`; local function 0 is `_start` (empty body); local function 1 is
not `_start`, does not recurse, has no `call_indirect`, and its only direct
call targets the whitelisted import. -/
def exWhitelist : FCModule :=
  { imports := [(10, "proc_exit")]
    locals := [(0, []), (1, [.callF 10])]
    startId := 0
    tableMembers := []
    tyOf := fun _ => 0 }

/-! ## Helper lemmas -/

/-- Inserting at `p` and erasing at `p + 1` leaves the length unchanged. -/
theorem length_insertIdx_eraseIdx {α : Type} (a : α) (l : List α) (p : Nat)
    (h : p < l.length) : ((l.insertIdx p a).eraseIdx (p + 1)).length = l.length := by
  have h1 : (l.insertIdx p a).length = l.length + 1 :=
    List.length_insertIdx p l (le_of_lt h)
  have h2 : p + 1 < (l.insertIdx p a).length := by omega
  have h3 := List.length_eraseIdx_add_one h2
  omega

/-- `insertIdx` in take/drop form. -/
theorem insertIdx_eq_take_cons_drop {α : Type} (a : α) :
    ∀ (p : Nat) (l : List α), p ≤ l.length →
      l.insertIdx p a = l.take p ++ a :: l.drop p
  | 0, l, _ => by simp
  | p + 1, [], h => by simp at h
  | p + 1, x :: xs, h => by
    have := insertIdx_eq_take_cons_drop a p xs (by simpa using h)
    simp [List.insertIdx_succ_cons, this]

/-- The shape of the instrument-mode rewrite of one site: the two inserts at
`point` followed by the erase at `point + 2` replace the element at `point`
by the pair `i32.const`, `call`. -/
theorem instRewrite_shape (stub : Nat) (gi : Int) :
    ∀ (point : Nat) (seq : List MInstr), point < seq.length →
      instRewrite seq point stub gi =
        seq.take point ++ [MInstr.const gi, MInstr.call stub] ++ seq.drop (point + 1)
  | 0, x :: xs, _ => by
    simp [instRewrite, List.insertIdx_zero]
  | p + 1, [], h => by simp at h
  | p + 1, x :: xs, h => by
    have ih := instRewrite_shape stub gi p xs (by simpa using h)
    simpa [instRewrite, List.insertIdx_succ_cons] using ih

/-! ## Claim C1 -/

/-- C1: in optimize mode, the rewrite applied to a recorded indirect-call
site — direct call for a `Direct` entry, `unreachable` for an `Unreachable`
entry, no edit for `Retain` — leaves the number of instructions in the
enclosing sequence unchanged. -/
theorem claim_opt_rewrite_count (seq : List MInstr) (point : Nat) (mv : MainMapValue)
    (h : point < seq.length) : (optRewrite seq point mv).length = seq.length := by
  rcases mv with ⟨fid, fb⟩
  cases fid with
  | some f =>
    simpa [optRewrite] using length_insertIdx_eraseIdx (MInstr.call f) seq point h
  | none =>
    cases fb with
    | true =>
      simpa [optRewrite] using length_insertIdx_eraseIdx MInstr.unreachableM seq point h
    | false => simp [optRewrite]

/-- Witness for C1 at a concrete sequence and site. -/
theorem claim_opt_rewrite_count_wit :
    (optRewrite [MInstr.callIndirectM 0, MInstr.otherM] 0 ⟨some 5, false⟩).length =
      [MInstr.callIndirectM 0, MInstr.otherM].length :=
  claim_opt_rewrite_count [MInstr.callIndirectM 0, MInstr.otherM] 0 ⟨some 5, false⟩
    (by decide)

/-! ## Claim C7 -/

/-- C7: in instrument mode, rewriting a recorded site leaves
`i32.const global_index` immediately followed by `call stub` at the former
location of the original `call_indirect`, removes that `call_indirect`, and
grows the sequence by exactly one instruction. -/
theorem claim_inst_rewrite_shape (seq : List MInstr) (point stub : Nat) (gi : Int)
    (ty : Nat) (h : seq.get? point = some (MInstr.callIndirectM ty)) :
    instRewrite seq point stub gi =
      seq.take point ++ [MInstr.const gi, MInstr.call stub] ++ seq.drop (point + 1) ∧
    (instRewrite seq point stub gi).length = seq.length + 1 ∧
    (instRewrite seq point stub gi).get? point = some (MInstr.const gi) ∧
    (instRewrite seq point stub gi).get? (point + 1) = some (MInstr.call stub) := by
  have hlt : point < seq.length := by
    by_contra hh
    push_neg at hh
    rw [List.get?_eq_none.mpr hh] at h
    simp at h
  have hsh := instRewrite_shape stub gi point seq hlt
  have htk : (seq.take point).length = point := by simp; omega
  have hsh2 : instRewrite seq point stub gi =
      seq.take point ++ ([MInstr.const gi, MInstr.call stub] ++ seq.drop (point + 1)) := by
    rw [hsh, List.append_assoc]
  refine ⟨hsh, ?_, ?_, ?_⟩
  · rw [hsh]; simp; omega
  · rw [hsh2, List.get?_append_right (by omega), htk]
    simp
  · rw [hsh2, List.get?_append_right (by omega), htk]
    have : point + 1 - point = 1 := by omega
    rw [this]
    simp

/-- Witness for C7 at a concrete sequence and site. -/
theorem claim_inst_rewrite_shape_wit :
    instRewrite [MInstr.otherM, MInstr.callIndirectM 4, MInstr.otherM] 1 9 0 =
      [MInstr.otherM] ++ [MInstr.const 0, MInstr.call 9] ++ [MInstr.otherM] ∧
    (instRewrite [MInstr.otherM, MInstr.callIndirectM 4, MInstr.otherM] 1 9 0).length =
      [MInstr.otherM, MInstr.callIndirectM 4, MInstr.otherM].length + 1 ∧
    (instRewrite [MInstr.otherM, MInstr.callIndirectM 4, MInstr.otherM] 1 9 0).get? 1 =
      some (MInstr.const 0) ∧
    (instRewrite [MInstr.otherM, MInstr.callIndirectM 4, MInstr.otherM] 1 9 0).get? 2 =
      some (MInstr.call 9) :=
  claim_inst_rewrite_shape [MInstr.otherM, MInstr.callIndirectM 4, MInstr.otherM]
    1 9 0 4 (by decide)

/-! ## Claim C3 -/

/-- C3: the inventory worklist of `src/main.rs` does not push `if_else` arms
(`IfElse` falls into the `_ => {}` arm of the match), so a `call_indirect`
inside an if-then arm is seen by the `TypeScan` dfs (`tSeqCIs`) but recorded
by the inventory in neither mode. -/
theorem claim_if_arm_site_missed :
    tSeqCIs ifArmBody = [7] ∧
    inventorySites false ifArmBody = [] ∧
    inventorySites true ifArmBody = [] := by decide

/-! ## Claim C4 -/

/-- C4 counterexample: with one recorded call site the module gains exactly
one observation global (not 5), and the export is named `profiling_global_0`
(there is no `profiling_global_0_0`). -/
theorem claim_five_globals_cex :
    (profilingGlobals 1).length = 1 ∧
    (profilingExports 1).map Prod.fst = ["profiling_global_0"] ∧
    "profiling_global_0_0" ∉ (profilingExports 1).map Prod.fst := by decide

/-- C4 amended: in instrument mode each of the `N` recorded call sites gets
exactly one mutable 32-bit global initialized to `-1`, and site `i`'s global
is exported under the single-index name `profiling_global_<i>`. -/
theorem claim_per_site_global (n i : Nat) (h : i < n) :
    (profilingGlobals n).length = n ∧
    (profilingGlobals n).get? i = some ⟨true, true, -1⟩ ∧
    (profilingExports n).length = n ∧
    (profilingExports n).get? i = some ("profiling_global_" ++ toString i, i) := by
  refine ⟨by simp [profilingGlobals], ?_, by simp [profilingExports], ?_⟩
  · simp [profilingGlobals, List.getElem?_replicate, h]
  · simp [profilingExports, List.getElem?_map, List.getElem?_range h]

/-- Witness for C4 (amended) at three sites, site 1. -/
theorem claim_per_site_global_wit :
    (profilingGlobals 3).length = 3 ∧
    (profilingGlobals 3).get? 1 = some ⟨true, true, -1⟩ ∧
    (profilingExports 3).length = 3 ∧
    (profilingExports 3).get? 1 = some ("profiling_global_" ++ toString 1, 1) :=
  claim_per_site_global 3 1 (by decide)

/-! ## Claim C5 -/

/-- C5 counterexample: on a module without a main function table the
resolver panics (`none`) rather than producing an empty modified map. -/
theorem claim_missing_table_cex :
    processMap ⟨none⟩ [(0, [-2, -2])] = none ∧
    processMap ⟨none⟩ [(0, [-2, -2])] ≠ some [] := by decide

/-- C5 amended: the resolver fails (Rust `unwrap` panic) when the main
function table is missing; when the table exists but has no element segment
it produces an empty modified map without failing. -/
theorem claim_resolver_table_edge (profile : List (Nat × List Int)) :
    processMap ⟨none⟩ profile = none ∧ processMap ⟨some []⟩ profile = some [] :=
  ⟨rfl, rfl⟩

/-! ## Claim C2 -/

/-- Resolution of a list of observations succeeds element-wise when every
lookup is in range and populated. -/
theorem resolveCalls_map (off : Nat) (members : List (Option Nat)) (resolve : Int → Nat) :
    ∀ l : List Int,
      (∀ v ∈ l, off ≤ usizeOf v ∧ members[usizeOf v - off]? = some (some (resolve v))) →
      resolveCalls off members l = some (l.map resolve)
  | [], _ => rfl
  | v :: rest, h => by
    have hv := h v (by simp)
    have hr := resolveCalls_map off members resolve rest (fun a ha => h a (by simp [ha]))
    simp [resolveCalls, hv.1, hv.2, hr]

/-- A filter keeps the full length iff the predicate holds everywhere. -/
theorem filter_all_length {α : Type} (p : α → Bool) :
    ∀ l : List α, ((l.filter p).length = l.length ↔ ∀ a ∈ l, p a)
  | [] => by simp
  | x :: xs => by
    have hle := List.length_filter_le p xs
    by_cases hx : p x
    · simp [hx, filter_all_length p xs]
    · simp only [List.filter_cons, hx, if_false, List.length_cons, Bool.false_eq_true]
      constructor
      · intro hlen; omega
      · intro hall
        exact absurd (hall x (by simp)) (by simpa using hx)

/-- C2: the resolver records `Direct` of the resolved members for the
non-negative observations when there is at least one, `Retain` when there is
none and every observation is `-2`, and `Unreachable` otherwise — for
observations drawn from the profile's value domain `{≥ 0, -1, -2}`. -/
theorem claim_resolver_cases (off : Nat) (members : List (Option Nat)) (obs : List Int)
    (resolve : Int → Nat)
    (hdom : ∀ v ∈ obs, 0 ≤ v ∨ v = -1 ∨ v = -2)
    (hres : ∀ v ∈ obs, 0 ≤ v →
      off ≤ usizeOf v ∧ members[usizeOf v - off]? = some (some (resolve v))) :
    processEntry off members obs =
      some (if (obs.filter (fun v => decide (0 ≤ v))) ≠ [] then
              MapValue.mk (some ((obs.filter (fun v => decide (0 ≤ v))).map resolve)) false
            else if ∀ v ∈ obs, v = -2 then MapValue.mk none false
            else MapValue.mk none true) := by
  have hfe : obs.filter (fun v => v != -2 && v != -1) =
      obs.filter (fun v => decide (0 ≤ v)) := by
    apply List.filter_congr
    intro a ha
    rcases hdom a ha with h0 | h1 | h2
    · have hne2 : a ≠ -2 := by omega
      have hne1 : a ≠ -1 := by omega
      simp [hne2, hne1, h0]
    · subst h1; rfl
    · subst h2; rfl
  have hlen_iff : (obs.filter (fun v => v == -2)).length = obs.length ↔
      ∀ v ∈ obs, v = -2 := by
    rw [filter_all_length]
    constructor
    · intro h a ha; simpa using h a ha
    · intro h a ha; simp [h a ha]
  simp only [processEntry, hfe]
  by_cases hne : obs.filter (fun v => decide (0 ≤ v)) = []
  · rw [if_neg (by simp [hne])]
    by_cases hall : ∀ v ∈ obs, v = -2
    · rw [if_pos (hlen_iff.mpr hall), if_neg (by simp [hne]), if_pos hall]
    · rw [if_neg (fun hc => hall (hlen_iff.mp hc)), if_neg (by simp [hne]),
        if_neg hall]
  · have hpos : 0 < (obs.filter (fun v => decide (0 ≤ v))).length :=
      List.length_pos.mpr hne
    rw [if_pos hpos,
      resolveCalls_map off members resolve _ (fun v hv =>
        hres v (List.mem_filter.mp hv).1 (by simpa using (List.mem_filter.mp hv).2)),
      if_pos hne]

/-- Witness for C2 on a concrete table slice and observation list. -/
theorem claim_resolver_cases_wit :
    processEntry 0 [some 4, none, some 9] [2, -1, 0] =
      some (MapValue.mk (some [9, 4]) false) := by
  rw [claim_resolver_cases 0 [some 4, none, some 9] [2, -1, 0]
    (fun v => if v = 2 then 9 else 4) (by decide) (by decide)]
  decide

/-! ## Evaluator helper lemmas -/

/-- `evalSeq` on a consed list: run the head, continue on `ok`. -/
theorem evalSeq_ofList_cons (env : Env) (i : SInstr) (l : List SInstr) (st : EvalSt) :
    evalSeq env (SSeq.ofList (i :: l)) st =
      match evalInstr env i st with
      | .ok st' => evalSeq env (SSeq.ofList l) st'
      | .returned st' => .returned st'
      | .trap st' => .trap st' := by
  simp only [SSeq.ofList, evalSeq]
  rcases evalInstr env i st with st' | st' | st' <;> rfl

/-- Running a block of `local.get`s pushes the locals' values (last pushed on
top) and continues. -/
theorem evalSeq_localGets (env : Env) (rest : List SInstr) :
    ∀ (l : List Nat) (st : EvalSt),
      evalSeq env (SSeq.ofList (l.map SInstr.localGet ++ rest)) st =
        evalSeq env (SSeq.ofList rest)
          { st with stack := (l.map st.locals).reverse ++ st.stack }
  | [], st => by simp
  | i :: l, st => by
    rw [List.map_cons, List.cons_append, evalSeq_ofList_cons]
    have hstep : evalInstr env (SInstr.localGet i) st =
        .ok { st with stack := st.locals i :: st.stack } := by
      simp [evalInstr]
    rw [hstep]
    dsimp only
    rw [evalSeq_localGets env rest l { st with stack := st.locals i :: st.stack }]
    congr 1
    simp

/-! ## Claim C9 -/

/-- Running a slowcall wrapper body: the counter global is bumped by one
(with i32 wrap-around), the parameters are forwarded to `f` in order, and the
only call event is the call of `f`. -/
theorem evalSeq_slowcallStub (env : Env) (ctr nP f : Nat) (st : EvalSt)
    (hpc : env.paramCount f = nP) (hstack : st.stack = []) :
    evalSeq env (slowcallStubBody ctr nP f) st =
      .ok { stack := (env.callRes f ((List.range nP).map st.locals)).reverse,
            locals := st.locals,
            globals := gupd st.globals ctr (wrap32 (st.globals ctr + 1)),
            events := st.events ++ [(f, (List.range nP).map st.locals)] } := by
  have h1 : evalSeq env (slowcallStubBody ctr nP f) st =
      evalSeq env (SSeq.ofList ((List.range nP).map SInstr.localGet ++ [SInstr.call f]))
        { st with stack := [],
                  globals := gupd st.globals ctr (wrap32 (st.globals ctr + 1)) } := by
    simp [slowcallStubBody, SSeq.ofList, evalSeq, evalInstr, BOp.apply, hstack]
  rw [h1, evalSeq_localGets]
  dsimp only
  have hlen : (((List.range nP).map st.locals).reverse).length = nP := by simp
  rw [evalSeq_ofList_cons]
  simp [evalSeq, evalInstr, SSeq.ofList, hpc, List.take_of_length_le (le_of_eq hlen),
    List.drop_eq_nil_of_le (le_of_eq hlen)]

/-- C9: after slowcall wrapping, a direct `call f` in any local function `g`
other than `f`'s wrapper `w` is rewritten to `call w`; the wrapper itself
keeps its `call f` (never rewritten to call itself); and executing the
wrapper increments the slowcall counter by 1 (i32-wrapped) and forwards all
parameters to `f`. -/
theorem claim_slowcall_wrapping (mapping : Nat → Option Nat) (f w ctr nP : Nat)
    (env : Env) (st : EvalSt) (hmap : mapping f = some w)
    (hpc : env.paramCount f = nP) (hstack : st.stack = []) :
    (∀ g, w ≠ g → rewriteInstr mapping g (SInstr.call f) = SInstr.call w) ∧
    rewriteSeq mapping w (slowcallStubBody ctr nP f) = slowcallStubBody ctr nP f ∧
    resIsOk (evalSeq env (slowcallStubBody ctr nP f) st) = true ∧
    (resSt (evalSeq env (slowcallStubBody ctr nP f) st)).globals ctr =
      wrap32 (st.globals ctr + 1) ∧
    (resSt (evalSeq env (slowcallStubBody ctr nP f) st)).events =
      st.events ++ [(f, (List.range nP).map st.locals)] := by
  have heval := evalSeq_slowcallStub env ctr nP f st hpc hstack
  refine ⟨?_, ?_, ?_, ?_, ?_⟩
  · intro g hg
    simp [rewriteInstr, hmap, hg]
  · have hlist : ∀ l : List SInstr,
        rewriteSeq mapping w (SSeq.ofList l) =
          SSeq.ofList (l.map (rewriteInstr mapping w)) := by
      intro l
      induction l with
      | nil => rfl
      | cons i r ih => simp [SSeq.ofList, rewriteSeq, ih]
    have hloc : (List.range nP).map (rewriteInstr mapping w ∘ SInstr.localGet) =
        (List.range nP).map SInstr.localGet := by
      simp only [Function.comp_def]
      exact List.map_congr_left (fun i _ => by simp [rewriteInstr])
    simp [slowcallStubBody, hlist, rewriteInstr, hmap, List.map_map, hloc]
  · rw [heval]; rfl
  · rw [heval]; simp [resSt, gupd]
  · rw [heval]; simp [resSt]

/-- Witness for C9 at a concrete wrapper map, counter, and state. -/
theorem claim_slowcall_wrapping_wit :
    rewriteInstr (fun g => if g = 4 then some 9 else none) 3 (SInstr.call 4) =
      SInstr.call 9 ∧
    rewriteSeq (fun g => if g = 4 then some 9 else none) 9 (slowcallStubBody 0 2 4) =
      slowcallStubBody 0 2 4 ∧
    resIsOk (evalSeq ⟨fun _ => 2, fun _ _ => []⟩ (slowcallStubBody 0 2 4)
      ⟨[], fun _ => 10, fun _ => 5, []⟩) = true ∧
    (resSt (evalSeq ⟨fun _ => 2, fun _ _ => []⟩ (slowcallStubBody 0 2 4)
      ⟨[], fun _ => 10, fun _ => 5, []⟩)).globals 0 = wrap32 (5 + 1) ∧
    (resSt (evalSeq ⟨fun _ => 2, fun _ _ => []⟩ (slowcallStubBody 0 2 4)
      ⟨[], fun _ => 10, fun _ => 5, []⟩)).events = [(4, [10, 10])] := by
  have H := claim_slowcall_wrapping (fun g => if g = 4 then some 9 else none) 4 9 0 2
    ⟨fun _ => 2, fun _ _ => []⟩ ⟨[], fun _ => 10, fun _ => 5, []⟩ (by decide) rfl rfl
  exact ⟨H.1 3 (by decide), H.2.1, H.2.2.1, H.2.2.2.1, H.2.2.2.2⟩

/-! ## Claim C10 -/

/-- `gupd` with the value already stored is the identity. -/
theorem gupd_self (g : Nat → Int) (i : Nat) : gupd g i (g i) = g := by
  funext j
  simp only [gupd]
  split
  · next h => rw [h]
  · rfl

/-- A matching `obsBlock` (site parameter equal to the block's constant)
updates exactly its global, by `obsUpdate`. -/
theorem evalInstr_obsBlock_match (env : Env) (j : Nat) (c : Int) (sL tL : Nat)
    (st : EvalSt) (hs : st.locals sL = c) :
    evalInstr env (obsBlock j c sL tL) st =
      .ok { st with globals := gupd st.globals j (obsUpdate (st.globals j) (st.locals tL)) } := by
  by_cases hg : st.globals j = -1
  · simp [obsBlock, evalInstr, evalSeq, SSeq.ofList, BOp.apply, hs, hg, obsUpdate, gupd]
  · by_cases ht : st.locals tL = st.globals j
    · simp [obsBlock, evalInstr, evalSeq, SSeq.ofList, BOp.apply, hs, hg, ht, obsUpdate,
        gupd_self]
    · simp [obsBlock, evalInstr, evalSeq, SSeq.ofList, BOp.apply, hs, hg, ht, obsUpdate]

/-- A non-matching `obsBlock` leaves the state unchanged. -/
theorem evalInstr_obsBlock_skip (env : Env) (j : Nat) (c : Int) (sL tL : Nat)
    (st : EvalSt) (hs : ¬ st.locals sL = c) :
    evalInstr env (obsBlock j c sL tL) st = .ok st := by
  simp [obsBlock, evalInstr, evalSeq, SSeq.ofList, BOp.apply, hs]

/-- Running a list of `obsBlock`s for pairwise distinct site indices: the
global of each matching index is updated by `obsUpdate`, every other global
is untouched, and the rest of the state is unchanged. -/
theorem evalSeq_obsBlockList (env : Env) (sL tL : Nat) :
    ∀ (js : List Nat) (st : EvalSt), js.Nodup →
      evalSeq env (SSeq.ofList (js.map (fun j => obsBlock j (Int.ofNat j) sL tL))) st =
        .ok { st with globals := fun k =>
          if k ∈ js ∧ st.locals sL = Int.ofNat k then obsUpdate (st.globals k) (st.locals tL) else st.globals k }
  | [], st, _ => by
    simp [SSeq.ofList, evalSeq]
  | j :: js, st, hnd => by
    have hnd' := List.nodup_cons.mp hnd
    rw [List.map_cons, evalSeq_ofList_cons]
    by_cases hs : st.locals sL = Int.ofNat j
    · rw [evalInstr_obsBlock_match env j _ sL tL st hs]
      dsimp only
      rw [evalSeq_obsBlockList env sL tL js _ hnd'.2]
      dsimp only
      congr 1
      congr 1
      funext k
      by_cases hk : k = j
      · subst hk
        simp [hnd'.1, hs, gupd]
      · have hkj : ¬ ((k : Int) = (j : Int)) := by
          simpa using fun hc => hk (Int.ofNat.inj hc)
        simp only [gupd, hk, if_false, List.mem_cons]
        by_cases hks : k ∈ js ∧ st.locals sL = Int.ofNat k
        · simp [hks, hks.1, hks.2]
        · simp only [if_neg hks]
          rw [if_neg]
          rintro ⟨hmem, hsk⟩
          rcases hmem with h | h
          · exact h.elim
          · exact hks ⟨h, hsk⟩
    · rw [evalInstr_obsBlock_skip env j _ sL tL st hs]
      dsimp only
      rw [evalSeq_obsBlockList env sL tL js _ hnd'.2]
      congr 1
      congr 1
      funext k
      by_cases hks : k ∈ js ∧ st.locals sL = Int.ofNat k
      · simp [hks, hks.1, hks.2, List.mem_cons]
      · simp only [if_neg hks, List.mem_cons]
        rw [if_neg]
        rintro ⟨hmem, hsk⟩
        rcases hmem with h | h
        · exact hs (h ▸ hsk)
        · exact hks ⟨h, hsk⟩

/-- The value an observation global holds after a run of observed targets:
`-1` if never hit, the first target while all targets agree, `-2` once two
distinct targets were seen. -/
def obsTrajectory : List Int → Int
  | [] => -1
  | t :: rest => if rest.all (fun v => v == t) then t else -2

/-- `-2` is absorbing for the observation update. -/
theorem obsUpdate_neg2 (t : Int) : obsUpdate (-2) t = -2 := by
  simp [obsUpdate]

/-- Once `-2`, a whole run of further updates stays `-2`. -/
theorem foldl_obsUpdate_neg2 : ∀ ts : List Int, ts.foldl obsUpdate (-2) = -2
  | [] => rfl
  | t :: ts => by rw [List.foldl_cons, obsUpdate_neg2]; exact foldl_obsUpdate_neg2 ts

/-- From a stored non-negative target, a run of updates keeps the target
while every update agrees, and saturates to `-2` otherwise. -/
theorem foldl_obsUpdate_run : ∀ (ts : List Int) (v : Int), 0 ≤ v →
    ts.foldl obsUpdate v = if ts.all (fun t => t == v) then v else -2
  | [], v, _ => by simp
  | t :: ts, v, hv => by
    rw [List.foldl_cons]
    by_cases ht : t = v
    · subst ht
      have h1 : obsUpdate t t = t := by simp [obsUpdate]
      rw [h1, foldl_obsUpdate_run ts t hv]
      simp
    · have hne : v ≠ -1 := by omega
      have hup : obsUpdate v t = -2 := by simp [obsUpdate, hne, ht]
      rw [hup, foldl_obsUpdate_neg2]
      have hall : ((t :: ts).all (fun x => x == v)) = false := by simp [ht]
      rw [hall]
      rfl

/-- Starting from the initial `-1`, the updates follow the claimed
trajectory. -/
theorem foldl_obsUpdate_traj (ts : List Int) (h : ∀ t ∈ ts, 0 ≤ t) :
    ts.foldl obsUpdate (-1) = obsTrajectory ts := by
  cases ts with
  | nil => rfl
  | cons t rest =>
    have ht : 0 ≤ t := h t (by simp)
    have h1 : obsUpdate (-1) t = t := by simp [obsUpdate]
    rw [List.foldl_cons, h1, foldl_obsUpdate_run rest t ht]
    rfl

/-- C10: the observation wiring updates each site's global by `obsUpdate`
(globals of other sites untouched, execution falls through normally), and
`obsUpdate` from the initial `-1` follows `-1 → first observed target → -2`
when every observed target is non-negative, with `-2` absorbing. -/
theorem claim_observation_transitions (env : Env) (n sL tL : Nat) (st : EvalSt) :
    resIsOk (evalSeq env (obsBlocks n sL tL) st) = true ∧
    (∀ k : Nat, k < n →
      (resSt (evalSeq env (obsBlocks n sL tL) st)).globals k =
        if st.locals sL = Int.ofNat k then obsUpdate (st.globals k) (st.locals tL) else st.globals k) ∧
    (∀ k : Nat, n ≤ k →
      (resSt (evalSeq env (obsBlocks n sL tL) st)).globals k = st.globals k) ∧
    (∀ ts : List Int, (∀ t ∈ ts, 0 ≤ t) → ts.foldl obsUpdate (-1) = obsTrajectory ts) ∧
    (∀ t : Int, obsUpdate (-2) t = -2) := by
  have hrw : obsBlocks n sL tL =
      SSeq.ofList (((List.range n).reverse).map (fun j => obsBlock j (Int.ofNat j) sL tL)) := by
    simp [obsBlocks, List.map_reverse]
  have heval := evalSeq_obsBlockList env sL tL ((List.range n).reverse) st
    (by simpa using List.nodup_range n)
  rw [hrw, heval]
  refine ⟨rfl, ?_, ?_, foldl_obsUpdate_traj, obsUpdate_neg2⟩
  · intro k hk
    simp [resSt, List.mem_reverse, List.mem_range, hk]
  · intro k hk
    simp only [resSt]
    rw [if_neg]
    rintro ⟨hm, -⟩
    rw [List.mem_reverse, List.mem_range] at hm
    omega

/-- Evaluation context for the C10 witness. -/
def exObsEnv : Env := ⟨fun _ => 0, fun _ _ => []⟩

/-- Start state for the C10 witness: site parameter (local 5) holds 1,
observed target (local 6) holds 42, all globals hold `-1`. -/
def exObsSt : EvalSt :=
  ⟨[], fun i => if i = 5 then 1 else if i = 6 then 42 else 0, fun _ => -1, []⟩

/-- Witness for C10 at two sites, matching site 1, target 42. -/
theorem claim_observation_transitions_wit :
    resIsOk (evalSeq exObsEnv (obsBlocks 2 5 6) exObsSt) = true ∧
    (resSt (evalSeq exObsEnv (obsBlocks 2 5 6) exObsSt)).globals 1 =
      (if exObsSt.locals 5 = Int.ofNat 1 then obsUpdate (exObsSt.globals 1) (exObsSt.locals 6) else exObsSt.globals 1) ∧
    (resSt (evalSeq exObsEnv (obsBlocks 2 5 6) exObsSt)).globals 3 = exObsSt.globals 3 ∧
    ([3, 3] : List Int).foldl obsUpdate (-1) = obsTrajectory [3, 3] ∧
    obsUpdate (-2) 7 = -2 := by
  have H := claim_observation_transitions exObsEnv 2 5 6 exObsSt
  exact ⟨H.1, H.2.1 1 (by decide), H.2.2.1 3 (by decide), H.2.2.2.1 [3, 3] (by decide),
    H.2.2.2.2 7⟩

/-! ## Claim C6 -/

/-- A guard block whose comparison matches: forward the parameters to the
callee and return its results. -/
theorem evalInstr_guardBlock_hit (env : Env) (cmp : Int) (callee nOld : Nat)
    (st : EvalSt) (hpc : env.paramCount callee = nOld) (hstack : st.stack = [])
    (ht : st.locals nOld = cmp) :
    evalInstr env (guardBlock cmp callee nOld) st =
      .returned { st with
        stack := (env.callRes callee ((List.range nOld).map st.locals)).reverse,
        events := st.events ++ [(callee, (List.range nOld).map st.locals)] } := by
  have ht' : cmp = st.locals nOld := ht.symm
  have h1 : evalInstr env (guardBlock cmp callee nOld) st =
      evalSeq env
        (SSeq.ofList ((List.range nOld).map SInstr.localGet ++ [SInstr.call callee, SInstr.ret]))
        { st with stack := [] } := by
    simp only [guardBlock, evalInstr, evalSeq, SSeq.ofList, BOp.apply, ht', hstack,
      if_pos, List.cons_append, List.nil_append]
    rw [if_neg (by decide : ¬ (1 : Int) = 0)]
    split <;> simp_all
  rw [h1, evalSeq_localGets]
  dsimp only
  have hlen : (((List.range nOld).map st.locals).reverse).length = nOld := by simp
  rw [evalSeq_ofList_cons]
  simp [evalSeq, evalInstr, SSeq.ofList, hpc, List.take_of_length_le (le_of_eq hlen),
    List.drop_eq_nil_of_le (le_of_eq hlen), evalSeq_ofList_cons, hstack]

/-- A guard block whose comparison misses leaves the state unchanged. -/
theorem evalInstr_guardBlock_miss (env : Env) (cmp : Int) (callee nOld : Nat)
    (st : EvalSt) (ht : ¬ st.locals nOld = cmp) :
    evalInstr env (guardBlock cmp callee nOld) st = .ok st := by
  have ht' : ¬ cmp = st.locals nOld := fun h => ht h.symm
  simp [guardBlock, evalInstr, evalSeq, SSeq.ofList, BOp.apply, ht']

/-- Transfer an index-wise property of two lists to the members of their
zip. -/
theorem zip_forall {α β : Type} (P : α × β → Prop) :
    ∀ (l1 : List α) (l2 : List β),
      (∀ i (h1 : i < l1.length) (h2 : i < l2.length), P (l1.get ⟨i, h1⟩, l2.get ⟨i, h2⟩)) →
      ∀ p ∈ l1.zip l2, P p
  | _, [], _, p, hp => by simp at hp
  | [], _ :: _, _, p, hp => by simp at hp
  | a :: l1, b :: l2, h, p, hp => by
    rcases List.mem_cons.mp hp with hq | hq
    · subst hq
      exact h 0 (by simp) (by simp)
    · exact zip_forall P l1 l2
        (fun i h1 h2 => h (i + 1) (by simpa using h1) (by simpa using h2)) p hq

/-- The first components of a zip form the prefix of the first list. -/
theorem map_fst_zip_take {α β : Type} :
    ∀ (l1 : List α) (l2 : List β), l2.length ≤ l1.length →
      (l1.zip l2).map Prod.fst = l1.take l2.length
  | _, [], _ => by simp
  | [], _ :: _, h => by simp at h
  | a :: l1, b :: l2, h => by
    simp [List.zip_cons_cons, map_fst_zip_take l1 l2 (by simpa using h)]

/-- Running a chain of guard blocks followed by `unreachable`: the first
matching guard forwards to its callee (which resolves the compared value),
and with no match the chain traps. -/
theorem evalSeq_guardChain (env : Env) (nOld : Nat) (resolve : Int → Nat) (t : Int) :
    ∀ (ps : List (Int × Nat)) (st : EvalSt),
      (∀ p ∈ ps, p.2 = resolve p.1 ∧ env.paramCount p.2 = nOld) →
      st.stack = [] → st.locals nOld = t →
      evalSeq env (SSeq.ofList (ps.map (fun p => guardBlock p.1 p.2 nOld) ++ [SInstr.unreach])) st =
        if t ∈ ps.map Prod.fst then
          .returned { st with
            stack := (env.callRes (resolve t) ((List.range nOld).map st.locals)).reverse,
            events := st.events ++ [(resolve t, (List.range nOld).map st.locals)] }
        else .trap st
  | [], st, _, hstack, ht => by
    simp [SSeq.ofList, evalSeq, evalInstr]
  | (c, f) :: ps, st, hps, hstack, ht => by
    have hp := hps (c, f) (by simp)
    rw [List.map_cons, List.cons_append, evalSeq_ofList_cons]
    by_cases hc : st.locals nOld = c
    · have hteq : t = c := by rw [← ht, hc]
      rw [evalInstr_guardBlock_hit env c f nOld st hp.2 hstack hc]
      dsimp only
      rw [if_pos (by simp [hteq])]
      rw [hteq, ← hp.1]
    · rw [evalInstr_guardBlock_miss env c f nOld st hc]
      dsimp only
      rw [evalSeq_guardChain env nOld resolve t ps st
        (fun p hyp => hps p (by simp [hyp])) hstack ht]
      have hne : ¬ t = c := by rw [← ht]; exact fun hcc => hc hcc
      simp only [List.map_cons]
      by_cases hmem : t ∈ List.map Prod.fst ps
      · rw [if_pos hmem, if_pos (List.mem_cons.mpr (Or.inr hmem))]
      · rw [if_neg hmem, if_neg (fun hc2 => (List.mem_cons.mp hc2).elim hne hmem)]

/-- C6 counterexample: the profile entry `[-1, 7]` resolves (with table
offset 0 and member 7 = function 99) to `Direct([99])`, but the generated
stub compares the incoming target against the raw observation `target[0] = -1`
instead of the profiled index 7 — called with target 7, it makes no call and
traps. -/
theorem claim_direct_stub_cex :
    processEntry 0 [none, none, none, none, none, none, none, some 99] [-1, 7] =
      some (MapValue.mk (some [99]) false) ∧
    resIsTrap (evalSeq ⟨fun _ => 0, fun _ _ => []⟩ (optStubBody [-1, 7] [99] 0)
      ⟨[], fun _ => 7, fun _ => 0, []⟩) = true ∧
    (resSt (evalSeq ⟨fun _ => 0, fun _ _ => []⟩ (optStubBody [-1, 7] [99] 0)
      ⟨[], fun _ => 7, fun _ => 0, []⟩)).events = [] := by
  refine ⟨by decide, ?_, ?_⟩ <;>
    simp [optStubBody, guardBlock, SSeq.ofList, evalSeq, evalInstr, resIsTrap, resSt,
      BOp.apply]

/-- C6 amended: when the compared raw observations are exactly the profiled
indices of the callees (`target[i]` non-negative and `id[i]` its resolved
member, as holds whenever every observation in the entry is a real table
index), the stub forwards the original parameters to the callee resolved
from the incoming target and returns its result if the target equals one of
the profiled indices, and traps otherwise. -/
theorem claim_direct_stub_semantics (env : Env) (targets : List Int) (ids : List Nat)
    (nOld : Nat) (resolve : Int → Nat) (t : Int) (st : EvalSt)
    (hlen : ids.length ≤ targets.length)
    (halign : ∀ i (h : i < ids.length),
      0 ≤ targets.get ⟨i, lt_of_lt_of_le h hlen⟩ ∧
      ids.get ⟨i, h⟩ = resolve (targets.get ⟨i, lt_of_lt_of_le h hlen⟩))
    (hpc : ∀ f ∈ ids, env.paramCount f = nOld)
    (hstack : st.stack = []) (ht : st.locals nOld = t) :
    (t ∈ targets.take ids.length →
      evalSeq env (optStubBody targets ids nOld) st =
        .returned { st with
          stack := (env.callRes (resolve t) ((List.range nOld).map st.locals)).reverse,
          events := st.events ++ [(resolve t, (List.range nOld).map st.locals)] }) ∧
    (t ∉ targets.take ids.length →
      evalSeq env (optStubBody targets ids nOld) st = .trap st) := by
  have hbody : optStubBody targets ids nOld =
      SSeq.ofList (((targets.zip ids).reverse).map (fun p => guardBlock p.1 p.2 nOld) ++
        [SInstr.unreach]) := by
    simp [optStubBody, List.map_reverse]
  have hps : ∀ p ∈ (targets.zip ids).reverse,
      p.2 = resolve p.1 ∧ env.paramCount p.2 = nOld := by
    intro p hp
    rw [List.mem_reverse] at hp
    refine zip_forall (fun q => q.2 = resolve q.1 ∧ env.paramCount q.2 = nOld)
      targets ids ?_ p hp
    intro i h1 h2
    exact ⟨(halign i h2).2, hpc _ (List.get_mem ids i h2)⟩
  have hchain := evalSeq_guardChain env nOld resolve t ((targets.zip ids).reverse) st
    hps hstack ht
  have hmem : (t ∈ ((targets.zip ids).reverse).map Prod.fst) ↔
      t ∈ targets.take ids.length := by
    rw [List.map_reverse, List.mem_reverse, map_fst_zip_take targets ids hlen]
  rw [hbody]
  constructor
  · intro htin
    rw [hchain, if_pos (hmem.mpr htin)]
  · intro htout
    rw [hchain, if_neg (fun hc => htout (hmem.mp hc))]

/-- Witness for C6 (amended) with two callees, target matching the second. -/
theorem claim_direct_stub_semantics_wit :
    evalSeq ⟨fun _ => 0, fun _ _ => []⟩ (optStubBody [7, 5] [99, 98] 0)
      ⟨[], fun _ => 5, fun _ => 0, []⟩ =
      Res.returned ⟨[], fun _ => 5, fun _ => 0, [(98, [])]⟩ :=
  (claim_direct_stub_semantics ⟨fun _ => 0, fun _ _ => []⟩ [7, 5] [99, 98] 0
    (fun v => if v = 7 then 99 else 98) 5 ⟨[], fun _ => 5, fun _ => 0, []⟩
    (by decide) (by decide) (by decide) rfl rfl).1 (by decide)

/-! ## Claim C8 -/

/-- A pass over an empty `unknown` set changes nothing. -/
theorem fcStep_empty (deps : Nat → Finset Nat) (s : FCState) (h : s.unknown = ∅) :
    fcStep deps s = s := by
  rcases s with ⟨fa, sl, un⟩
  simp only at h
  subst h
  simp [fcStep]

/-- A pass that does not shrink `unknown` changes nothing. -/
theorem fcStep_card_eq (deps : Nat → Finset Nat) (s : FCState)
    (h : (fcStep deps s).unknown.card = s.unknown.card) : fcStep deps s = s := by
  rcases s with ⟨fa, sl, un⟩
  have hsub : (un.filter (fun u => (deps u ∩ sl).Nonempty) ∪
      un.filter (fun u => deps u ⊆ fa)) ⊆ un :=
    Finset.union_subset (Finset.filter_subset _ _) (Finset.filter_subset _ _)
  have hcard : (un \ (un.filter (fun u => (deps u ∩ sl).Nonempty) ∪
      un.filter (fun u => deps u ⊆ fa))).card =
      un.card - (un.filter (fun u => (deps u ∩ sl).Nonempty) ∪
      un.filter (fun u => deps u ⊆ fa)).card :=
    Finset.card_sdiff hsub
  have hle := Finset.card_le_card hsub
  have h0 : (un.filter (fun u => (deps u ∩ sl).Nonempty) ∪
      un.filter (fun u => deps u ⊆ fa)).card = 0 := by
    have h' : (fcStep deps ⟨fa, sl, un⟩).unknown.card =
        (un \ (un.filter (fun u => (deps u ∩ sl).Nonempty) ∪
        un.filter (fun u => deps u ⊆ fa))).card := rfl
    simp only at h
    omega
  have hAB := Finset.card_eq_zero.mp h0
  have hA : un.filter (fun u => (deps u ∩ sl).Nonempty) = ∅ :=
    (Finset.union_eq_empty.mp hAB).1
  have hB : un.filter (fun u => deps u ⊆ fa) = ∅ :=
    (Finset.union_eq_empty.mp hAB).2
  simp [fcStep, hA, hB]

/-- Once at a fixed point of the pass, the loop never moves. -/
theorem fcLoop_of_fix (deps : Nat → Finset Nat) (s : FCState)
    (hfix : fcStep deps s = s) : ∀ (fuel prev : Nat), fcLoop deps fuel prev s = s
  | 0, _ => rfl
  | fuel + 1, prev => by
    simp only [fcLoop]
    split
    · rfl
    · rw [hfix]
      exact fcLoop_of_fix deps s hfix fuel _

/-- With enough fuel the loop ends in a fixed point of the pass. -/
theorem fcLoop_stable (deps : Nat → Finset Nat) :
    ∀ (fuel prev : Nat) (s : FCState),
      s.unknown.card + 1 ≤ fuel →
      (prev = s.unknown.card → fcStep deps s = s) →
      fcStep deps (fcLoop deps fuel prev s) = fcLoop deps fuel prev s
  | 0, _, s, hf, _ => by omega
  | fuel + 1, prev, s, hf, hside => by
    simp only [fcLoop]
    split
    · next hguard => exact hside hguard.symm
    · next hguard =>
      by_cases hcard : (fcStep deps s).unknown.card = s.unknown.card
      · have hfix := fcStep_card_eq deps s hcard
        rw [hfix, fcLoop_of_fix deps s hfix fuel _]
        exact hfix
      · have hle : (fcStep deps s).unknown.card ≤ s.unknown.card :=
          Finset.card_le_card (Finset.sdiff_subset)
        exact fcLoop_stable deps fuel _ (fcStep deps s) (by omega)
          (fun hp => absurd hp.symm hcard)

/-- A pass permutes ids between the three sets but never invents or drops
one. -/
theorem fcStep_union (deps : Nat → Finset Nat) (s : FCState) :
    (fcStep deps s).fast ∪ (fcStep deps s).slow ∪ (fcStep deps s).unknown =
      s.fast ∪ s.slow ∪ s.unknown := by
  ext x
  simp only [fcStep, Finset.mem_union, Finset.mem_sdiff, Finset.mem_filter]
  tauto

/-- The loop permutes ids between the three sets but never invents or drops
one. -/
theorem fcLoop_union (deps : Nat → Finset Nat) :
    ∀ (fuel prev : Nat) (s : FCState),
      (fcLoop deps fuel prev s).fast ∪ (fcLoop deps fuel prev s).slow ∪
        (fcLoop deps fuel prev s).unknown = s.fast ∪ s.slow ∪ s.unknown
  | 0, _, s => rfl
  | fuel + 1, prev, s => by
    simp only [fcLoop]
    split
    · rfl
    · rw [fcLoop_union deps fuel _ (fcStep deps s), fcStep_union]

/-- `fastcalls` only grows along the loop. -/
theorem fcLoop_fast_mono (deps : Nat → Finset Nat) :
    ∀ (fuel prev : Nat) (s : FCState), s.fast ⊆ (fcLoop deps fuel prev s).fast
  | 0, _, s => Finset.Subset.refl _
  | fuel + 1, prev, s => by
    simp only [fcLoop]
    split
    · exact Finset.Subset.refl _
    · exact Finset.Subset.trans (Finset.subset_union_left)
        (fcLoop_fast_mono deps fuel _ (fcStep deps s))

/-- The combined invariant of the loop: the three sets are pairwise
disjoint, and every slowcall either had its scan flag forced false or
depends on a slowcall. -/
def fcInv (deps : Nat → Finset Nat) (isF : Nat → Bool) (s : FCState) : Prop :=
  (∀ x ∈ s.fast, x ∉ s.slow) ∧
  (∀ x ∈ s.fast, x ∉ s.unknown) ∧
  (∀ x ∈ s.slow, x ∉ s.unknown) ∧
  (∀ x ∈ s.slow, isF x = false ∨ (deps x ∩ s.slow).Nonempty)

/-- One pass preserves the invariant. -/
theorem fcStep_inv (deps : Nat → Finset Nat) (isF : Nat → Bool) (s : FCState)
    (h : fcInv deps isF s) : fcInv deps isF (fcStep deps s) := by
  obtain ⟨h1, h2, h3, h4⟩ := h
  refine ⟨?_, ?_, ?_, ?_⟩
  · intro x hx hx'
    rw [fcStep] at hx hx'
    simp only [Finset.mem_union, Finset.mem_filter] at hx hx'
    rcases hx with hx | ⟨hxu, hxd⟩
    · rcases hx' with hx' | ⟨hx'u, _⟩
      · exact h1 x hx hx'
      · exact h2 x hx hx'u
    · rcases hx' with hx' | ⟨hx'u, hx'd⟩
      · exact h3 x hx' hxu
      · obtain ⟨d, hd⟩ := hx'd
        rw [Finset.mem_inter] at hd
        exact h1 d (hxd hd.1) hd.2
  · intro x hx hx'
    rw [fcStep] at hx hx'
    simp only [Finset.mem_union, Finset.mem_filter, Finset.mem_sdiff] at hx hx'
    rcases hx with hx | ⟨hxu, hxd⟩
    · exact h2 x hx hx'.1
    · exact hx'.2 (Or.inr ⟨hxu, hxd⟩)
  · intro x hx hx'
    rw [fcStep] at hx hx'
    simp only [Finset.mem_union, Finset.mem_filter, Finset.mem_sdiff] at hx hx'
    rcases hx with hx | ⟨hxu, hxd⟩
    · exact h3 x hx hx'.1
    · exact hx'.2 (Or.inl ⟨hxu, hxd⟩)
  · intro x hx
    rw [fcStep] at hx ⊢
    simp only [Finset.mem_union, Finset.mem_filter] at hx
    rcases hx with hx | ⟨hxu, hxd⟩
    · rcases h4 x hx with hf | ⟨d, hd⟩
      · exact Or.inl hf
      · refine Or.inr ⟨d, ?_⟩
        rw [Finset.mem_inter] at hd ⊢
        simp only [Finset.mem_union]
        exact ⟨hd.1, Or.inl hd.2⟩
    · obtain ⟨d, hd⟩ := hxd
      refine Or.inr ⟨d, ?_⟩
      rw [Finset.mem_inter] at hd ⊢
      simp only [Finset.mem_union]
      exact ⟨hd.1, Or.inl hd.2⟩

/-- The loop preserves the invariant. -/
theorem fcLoop_inv (deps : Nat → Finset Nat) (isF : Nat → Bool) :
    ∀ (fuel prev : Nat) (s : FCState), fcInv deps isF s →
      fcInv deps isF (fcLoop deps fuel prev s)
  | 0, _, _, h => h
  | fuel + 1, prev, s, h => by
    simp only [fcLoop]
    split
    · exact h
    · exact fcLoop_inv deps isF fuel _ (fcStep deps s) (fcStep_inv deps isF s h)

/-- With pairwise distinct function ids, the lookup by id finds the scan
record itself. -/
theorem find_of_nodup_mem :
    ∀ (rs : List (Nat × Bool × Finset Nat)) (r : Nat × Bool × Finset Nat),
      (rs.map Prod.fst).Nodup → r ∈ rs → rs.find? (fun q => q.1 == r.1) = some r
  | [], r, _, hr => by simp at hr
  | q :: rs, r, hnd, hr => by
    rw [List.map_cons] at hnd
    have hnd' := List.nodup_cons.mp hnd
    rcases List.mem_cons.mp hr with h | h
    · subst h
      simp [List.find?]
    · have hq : (q.1 == r.1) = false := by
        rw [beq_eq_false_iff_ne]
        intro hqe
        exact hnd'.1 (hqe ▸ List.mem_map_of_mem Prod.fst h)
      rw [List.find?_cons_of_neg _ (by simp [hq])]
      exact find_of_nodup_mem rs r hnd'.2 h

/-- Two scan records with the same id are the same record. -/
theorem eq_of_nodup_fst (rs : List (Nat × Bool × Finset Nat))
    (hnd : (rs.map Prod.fst).Nodup) (r r' : Nat × Bool × Finset Nat)
    (hr : r ∈ rs) (hr' : r' ∈ rs) (hf : r.1 = r'.1) : r = r' := by
  have h1 := find_of_nodup_mem rs r hnd hr
  have h2 := find_of_nodup_mem rs r' hnd hr'
  rw [hf] at h1
  rw [h1] at h2
  exact Option.some.inj h2

/-- `depsOf` of a member record is its deps set. -/
theorem depsOf_eq (rs : List (Nat × Bool × Finset Nat))
    (hnd : (rs.map Prod.fst).Nodup) (r : Nat × Bool × Finset Nat) (hr : r ∈ rs) :
    depsOf rs r.1 = r.2.2 := by
  simp [depsOf, find_of_nodup_mem rs r hnd hr]

/-- `isFastOf` of a member record is its flag. -/
theorem isFastOf_eq (rs : List (Nat × Bool × Finset Nat))
    (hnd : (rs.map Prod.fst).Nodup) (r : Nat × Bool × Finset Nat) (hr : r ∈ rs) :
    isFastOf rs r.1 = r.2.1 := by
  simp [isFastOf, find_of_nodup_mem rs r hnd hr]

/-- A member record's id lands in a seed set iff the record passes the seed
filter. -/
theorem mem_seedSet_iff (rs : List (Nat × Bool × Finset Nat))
    (p : Nat × Bool × Finset Nat → Bool) (hnd : (rs.map Prod.fst).Nodup)
    (r : Nat × Bool × Finset Nat) (hr : r ∈ rs) :
    r.1 ∈ ((rs.filter p).map Prod.fst).toFinset ↔ p r = true := by
  simp only [List.mem_toFinset, List.mem_map]
  constructor
  · rintro ⟨r', hr', hfst⟩
    have hr'' := List.mem_filter.mp hr'
    have heq := eq_of_nodup_fst rs hnd r' r hr''.1 hr hfst
    rw [← heq]
    exact hr''.2
  · intro hp
    exact ⟨r, List.mem_filter.mpr ⟨hr, hp⟩, rfl⟩

/-- Scanning a body with no `call_indirect`, no recursion, and no calls into
the poisoning import set keeps the fastcall flag and keeps the deps inside
the set the calls target. -/
theorem fcScan_closure (m : FCModule) (f : Nat) (S : Finset Nat) :
    ∀ (body : List FCInstr) (acc : Bool × Finset Nat),
      m.startId ≠ f →
      (∀ i ∈ body, ∀ ty, i ≠ FCInstr.callIndirectF ty) →
      (∀ g, FCInstr.callF g ∈ body → g ≠ f ∧ g ∉ importedFuncs m ∧ g ∈ S) →
      acc.1 = true → acc.2 ⊆ S →
      (body.foldl (fcScanStep m f) acc).1 = true ∧
      (body.foldl (fcScanStep m f) acc).2 ⊆ S
  | [], _, _, _, _, h1, h2 => ⟨h1, h2⟩
  | i :: body, acc, hstart, hci, hcalls, h1, h2 => by
    rw [List.foldl_cons]
    rcases i with g | ty | _
    · have hg := hcalls g (by simp)
      have hstep : fcScanStep m f acc (FCInstr.callF g) = (acc.1, insert g acc.2) := by
        simp [fcScanStep, hstart, Ne.symm hg.1, hg.2.1]
      rw [hstep]
      exact fcScan_closure m f S body (acc.1, insert g acc.2) hstart
        (fun j hj => hci j (by simp [hj]))
        (fun g' hg' => hcalls g' (by simp [hg']))
        h1
        (Finset.insert_subset_iff.mpr ⟨hg.2.2, h2⟩)
    · exact absurd rfl (hci _ (by simp) ty)
    · have hstep : fcScanStep m f acc FCInstr.otherF = acc := by
        simp [fcScanStep, hstart]
      rw [hstep]
      exact fcScan_closure m f S body acc hstart
        (fun j hj => hci j (by simp [hj]))
        (fun g' hg' => hcalls g' (by simp [hg'])) h1 h2

/-- The scan-result list keeps the local function ids. -/
theorem fcScanResults_fst (m : FCModule) :
    (fcScanResults m).map Prod.fst = m.locals.map Prod.fst := by
  simp [fcScanResults, List.map_map, Function.comp_def]

/-- The seeds satisfy the loop invariant. -/
theorem fcInit_inv (m : FCModule) (hnd : (m.locals.map Prod.fst).Nodup) :
    fcInv (depsOf (fcScanResults m)) (isFastOf (fcScanResults m)) (fcInit m) := by
  have hnd' : ((fcScanResults m).map Prod.fst).Nodup := by
    rw [fcScanResults_fst]; exact hnd
  have hrec : ∀ (x : Nat) (p : Nat × Bool × Finset Nat → Bool),
      x ∈ (((fcScanResults m).filter p).map Prod.fst).toFinset →
      ∃ r ∈ fcScanResults m, r.1 = x ∧ p r = true := by
    intro x p hx
    simp only [List.mem_toFinset, List.mem_map] at hx
    obtain ⟨r, hr, hfst⟩ := hx
    have hr' := List.mem_filter.mp hr
    exact ⟨r, hr'.1, hfst, hr'.2⟩
  refine ⟨?_, ?_, ?_, ?_⟩
  · intro x hx hx'
    obtain ⟨r, hr, hfst, hp⟩ := hrec x _ hx
    obtain ⟨r', hr', hfst', hp'⟩ := hrec x _ hx'
    have heq := eq_of_nodup_fst _ hnd' r r' hr hr' (by rw [hfst, hfst'])
    subst heq
    simp_all
  · intro x hx hx'
    obtain ⟨r, hr, hfst, hp⟩ := hrec x _ hx
    obtain ⟨r', hr', hfst', hp'⟩ := hrec x _ hx'
    have heq := eq_of_nodup_fst _ hnd' r r' hr hr' (by rw [hfst, hfst'])
    subst heq
    simp_all
  · intro x hx hx'
    obtain ⟨r, hr, hfst, hp⟩ := hrec x _ hx
    obtain ⟨r', hr', hfst', hp'⟩ := hrec x _ hx'
    have heq := eq_of_nodup_fst _ hnd' r r' hr hr' (by rw [hfst, hfst'])
    subst heq
    simp_all
  · intro x hx
    obtain ⟨r, hr, hfst, hp⟩ := hrec x _ hx
    left
    rw [← hfst, isFastOf_eq _ hnd' r hr]
    simpa using hp

/-- C8 counterexample: in `exWhitelist`, local function 1 is not `_start`,
does not recurse, has no `call_indirect`, and its only direct call targets
the import named `proc_exit` (which the whitelist removes from the
poisoning set) — yet the fixed point classifies it as a slowcall, because
an imported function never enters the fastcall set and the function is
stranded in `unknown`, which is conservatively slow. -/
theorem claim_whitelist_cex :
    exWhitelist.startId ≠ 1 ∧
    (1, [FCInstr.callF 10]) ∈ exWhitelist.locals ∧
    (10, "proc_exit") ∈ exWhitelist.imports ∧
    importedFuncs exWhitelist = ∅ ∧
    1 ∈ fcSlowSet exWhitelist ∧
    1 ∉ fcFastSet exWhitelist := by decide

/-- C8 amended: calls to the whitelisted imports do not force the scan flag
to false, but they strand the caller in `unknown` (an import is never
classified fastcall), so the claim holds only with the benign-call set
restricted to functions classified fastcall: a local function that is not
`_start`, does not recurse, contains no `call_indirect`, and whose direct
calls target only non-import functions classified fastcall is itself
classified fastcall, not slowcall. -/
theorem claim_fastcall_closure (m : FCModule) (f : Nat) (body : List FCInstr)
    (hnd : (m.locals.map Prod.fst).Nodup)
    (hmem : (f, body) ∈ m.locals)
    (hstart : m.startId ≠ f)
    (hci : ∀ i ∈ body, ∀ ty, i ≠ FCInstr.callIndirectF ty)
    (hcalls : ∀ g, FCInstr.callF g ∈ body →
      g ≠ f ∧ g ∉ importedFuncs m ∧ g ∈ fcFastSet m) :
    f ∈ fcFastSet m ∧ f ∉ fcSlowSet m := by
  have hnd' : ((fcScanResults m).map Prod.fst).Nodup := by
    rw [fcScanResults_fst]; exact hnd
  have hsc := fcScan_closure m f (fcFastSet m) body (true, ∅) hstart hci hcalls rfl
    (Finset.empty_subset _)
  have hrecmem : (f, fcScan m f body) ∈ fcScanResults m := by
    simp only [fcScanResults]
    exact List.mem_map.mpr ⟨(f, body), hmem, rfl⟩
  have hfold : fcScan m f body = body.foldl (fcScanStep m f) (true, ∅) := rfl
  have hflag : (fcScan m f body).1 = true := by rw [hfold]; exact hsc.1
  have hsub : (fcScan m f body).2 ⊆ fcFastSet m := by rw [hfold]; exact hsc.2
  have hdf : depsOf (fcScanResults m) f = (fcScan m f body).2 :=
    depsOf_eq (fcScanResults m) hnd' (f, fcScan m f body) hrecmem
  have hff : isFastOf (fcScanResults m) f = (fcScan m f body).1 :=
    isFastOf_eq (fcScanResults m) hnd' (f, fcScan m f body) hrecmem
  have hstab : fcStep (depsOf (fcScanResults m)) (fcFinal m) = fcFinal m := by
    rw [fcFinal]
    exact fcLoop_stable (depsOf (fcScanResults m)) _ 0 (fcInit m) (by omega)
      (fun h0 => fcStep_empty _ (fcInit m) (Finset.card_eq_zero.mp h0.symm))
  have hinv : fcInv (depsOf (fcScanResults m)) (isFastOf (fcScanResults m)) (fcFinal m) := by
    rw [fcFinal]
    exact fcLoop_inv _ _ _ 0 (fcInit m) (fcInit_inv m hnd)
  have hunion : (fcFinal m).fast ∪ (fcFinal m).slow ∪ (fcFinal m).unknown =
      (fcInit m).fast ∪ (fcInit m).slow ∪ (fcInit m).unknown := by
    rw [fcFinal]
    exact fcLoop_union _ _ 0 (fcInit m)
  have hseed : f ∈ (fcInit m).fast ∪ (fcInit m).slow ∪ (fcInit m).unknown := by
    by_cases hD : (fcScan m f body).2.card = 0
    · refine Finset.mem_union.mpr (Or.inl (Finset.mem_union.mpr (Or.inl ?_)))
      exact (mem_seedSet_iff (fcScanResults m) _ hnd' (f, fcScan m f body) hrecmem).mpr
        (by simp [hflag, hD])
    · refine Finset.mem_union.mpr (Or.inr ?_)
      exact (mem_seedSet_iff (fcScanResults m) _ hnd' (f, fcScan m f body) hrecmem).mpr
        (by simp [hflag, hD])
  have hfin : f ∈ (fcFinal m).fast ∪ (fcFinal m).slow ∪ (fcFinal m).unknown := by
    rw [hunion]; exact hseed
  have hfast : f ∈ (fcFinal m).fast := by
    rcases Finset.mem_union.mp hfin with hf2 | hunk
    · rcases Finset.mem_union.mp hf2 with hfa | hsl
      · exact hfa
      · exfalso
        rcases hinv.2.2.2 f hsl with hflag' | ⟨d, hd⟩
        · rw [hff, hflag] at hflag'
          exact absurd hflag' (by decide)
        · rw [Finset.mem_inter] at hd
          have hdfast : d ∈ (fcFinal m).fast := hsub (hdf ▸ hd.1)
          exact hinv.1 d hdfast hd.2
    · have hfB : f ∈ (fcFinal m).unknown.filter
          (fun u => depsOf (fcScanResults m) u ⊆ (fcFinal m).fast) := by
        refine Finset.mem_filter.mpr ⟨hunk, ?_⟩
        rw [hdf]
        exact hsub
      have hmemu : f ∈ (fcFinal m).fast ∪ (fcFinal m).unknown.filter
          (fun u => depsOf (fcScanResults m) u ⊆ (fcFinal m).fast) :=
        Finset.mem_union.mpr (Or.inr hfB)
      have h2 : (fcFinal m).fast ∪ (fcFinal m).unknown.filter
          (fun u => depsOf (fcScanResults m) u ⊆ (fcFinal m).fast) = (fcFinal m).fast :=
        congrArg FCState.fast hstab
      rw [h2] at hmemu
      exact hmemu
  refine ⟨hfast, ?_⟩
  intro hslow
  rcases Finset.mem_union.mp hslow with h | h
  · exact hinv.1 f hfast h
  · exact hinv.2.1 f hfast h

/-- Module for the C8 (amended) witness: function 2 calls only function 1,
which is a seeded fastcall. -/
def exClosure : FCModule :=
  { imports := []
    locals := [(0, []), (1, []), (2, [FCInstr.callF 1])]
    startId := 0
    tableMembers := []
    tyOf := fun _ => 0 }

/-- Witness for C8 (amended) on `exClosure`. -/
theorem claim_fastcall_closure_wit :
    2 ∈ fcFastSet exClosure ∧ 2 ∉ fcSlowSet exClosure :=
  claim_fastcall_closure exClosure 2 [FCInstr.callF 1] (by decide) (by decide)
    (by decide)
    (by intro i hi ty; simp only [List.mem_singleton] at hi; subst hi; simp)
    (by
      intro g hg
      simp only [List.mem_singleton] at hg
      have hg1 : g = 1 := by
        cases hg
        rfl
      subst hg1
      exact ⟨by decide, by decide, by decide⟩)
